import Mathlib

/-!
Shallow embedding of `lisa/analysis/rta.py` (class `RTAEventsAnalysis`).

Trace-event dataframes become Lean lists of row structures, kept in the
dataframe's row order (which is trace/time order).  Timestamps are
modelled as integers: the source only ever subtracts, adds and compares
them, so no claim depends on fractional timestamp values.  The pandas
operations used by the source are modelled one-to-one:

* `df.groupby(ks).head(1)`            -> keep the first row of each key group
* `df.drop_duplicates(keep='last')`   -> keep the last row of each key group
* `df.sort_values` / `df.sort_index`  -> stable insertion sort by the key
* `df.head(n)` (with python `n < 0`)  -> `pyHead`
* `df.tail(1)`                        -> `pyTail1`
* `.values[0]` / `.index[0]`          -> `values0`, raising `IndexError`
* `df[t:]` on a time-sorted index     -> filter of rows with index `>= t`
* unknown task / length-mismatch      -> `PyError.valueError`

Fallible operations return `Except PyError`.
-/

inductive PyError where
  | indexError
  | valueError
deriving DecidableEq

structure TaskID where
  pid : ℕ
  comm : String
deriving DecidableEq

/-- One row of the `rtapp_loop` event dataframe (`df_rtapp_loop`).  `Time` is
the dataframe index (the trace timestamp); the remaining fields are the
columns described in the source's docstring. -/
structure LoopEvent where
  Time : ℤ
  comm : String
  pid : ℕ
  event : String
  phase : ℕ
  phase_loop : ℕ
  thread_loop : ℕ
deriving DecidableEq

/-- One row of the intermediate dataframe produced by `_get_rtapp_phases`
after `.sort_index()[['__comm', '__pid', 'phase']].reset_index()`:
the former time index becomes the `Time` column. -/
structure PhaseRow where
  Time : ℤ
  comm : String
  pid : ℕ
  phase : ℕ
deriving DecidableEq

/-- The `PhaseWindow` namedtuple `(id, start, end)` of the source
(`end` is `stop` here because `end` is a Lean keyword). -/
structure PhaseWindow where
  id : ℤ
  start : ℤ
  stop : ℤ
deriving DecidableEq

instance {ε α : Type} [DecidableEq ε] [DecidableEq α] : DecidableEq (Except ε α) := fun x y =>
  match x, y with
  | .ok a, .ok b => if h : a = b then .isTrue (by rw [h]) else .isFalse (by simp [h])
  | .error a, .error b => if h : a = b then .isTrue (by rw [h]) else .isFalse (by simp [h])
  | .ok _, .error _ => .isFalse (by simp)
  | .error _, .ok _ => .isFalse (by simp)

/-- `.values[0]` (equally `.index[0]`): first element, `IndexError` when empty. -/
def values0 {α : Type} : List α → Except PyError α
  | [] => .error .indexError
  | a :: _ => .ok a

/-- pandas `df.head(n)` with python semantics: a negative `n` drops the last
`|n|` rows. -/
def pyHead {α : Type} (n : ℤ) (l : List α) : List α :=
  if 0 ≤ n then l.take n.toNat else l.take (l.length - (-n).toNat)

/-- pandas `df.tail(1)`: the last row as a (possibly empty) list. -/
def pyTail1 {α : Type} (l : List α) : List α :=
  l.drop (l.length - 1)

/-- python `l[::2]`. -/
def everyOther {α : Type} : List α → List α
  | [] => []
  | [a] => [a]
  | a :: _ :: l => a :: everyOther l

/-- `index[1:] - index[:-1]`: adjacent differences. -/
def adjacentDiffs : List ℤ → List ℤ
  | a :: b :: l => (b - a) :: adjacentDiffs (b :: l)
  | _ => []

/-- Pair a list of timestamps into `(start, next - start)` rows, two at a
time; a trailing unpaired element contributes nothing. -/
def specPairs : List ℤ → List (ℤ × ℤ)
  | a :: b :: l => (a, b - a) :: specPairs l
  | _ => []

/-- pandas `drop_duplicates(keep='last')` over the key `key`: a row survives
iff no later row has the same key. -/
def dropDupKeepLast {α κ : Type} [BEq κ] (key : α → κ) : List α → List α
  | [] => []
  | a :: l =>
    if l.any (fun b => key b == key a) then dropDupKeepLast key l
    else a :: dropDupKeepLast key l

/-- pandas `groupby(ks).head(1)` (rows in original order, first of each key
group), via an accumulator of keys already seen. -/
def groupbyHead1Aux {α κ : Type} [DecidableEq κ] (key : α → κ) (seen : List κ) :
    List α → List α
  | [] => []
  | a :: l =>
    if key a ∈ seen then groupbyHead1Aux key seen l
    else a :: groupbyHead1Aux key (key a :: seen) l

def groupbyHead1 {α κ : Type} [DecidableEq κ] (key : α → κ) (l : List α) : List α :=
  groupbyHead1Aux key [] l

/-- Stable insertion of `a` into `l`, used to model the pandas sorts. -/
def insertSorted {α : Type} (le : α → α → Bool) (a : α) : List α → List α
  | [] => [a]
  | b :: l => if le a b then a :: b :: l else b :: insertSorted le a l

/-- Stable sort by `le` (ties keep their input order, like a stable pandas
sort kind). -/
def sortBy {α : Type} (le : α → α → Bool) (l : List α) : List α :=
  l.foldr (insertSorted le) []

/-- `_task_filtered`: raise `ValueError` when the task is not one of the
rt-app tasks appearing in the events, otherwise filter the rows whose
`(pid, comm)` match; `task = none` returns the rows unfiltered. -/
def taskFiltered {α : Type} (pid : α → ℕ) (comm : α → String)
    (df : List α) (task : Option TaskID) : Except PyError (List α) :=
  match task with
  | none => .ok df
  | some t =>
    if df.any (fun e => pid e == t.pid && comm e == t.comm) then
      .ok (df.filter (fun e => pid e == t.pid && comm e == t.comm))
    else .error .valueError

/-- `df_rtapp_loop(task)`: the `rtapp_loop` dataframe filtered to one task. -/
def df_rtapp_loop (trace : List LoopEvent) (task : TaskID) :
    Except PyError (List LoopEvent) :=
  taskFiltered (fun e => e.pid) (fun e => e.comm) trace (some task)

/-- The inner `keep_first_start` of `df_phases`: the value written back into
the `phase_loop` column (`-1` marks an event for removal, `0` a first-start
candidate). -/
def keep_first_start (e : LoopEvent) : ℤ :=
  if e.phase_loop ≠ 0 then -1
  else if e.event == "end" then -1
  else 0

/-- The two columns `df_phases` deduplicates on: `phase` and the rewritten
`phase_loop`. -/
def phaseKey (e : LoopEvent) : ℕ × ℤ :=
  (e.phase, keep_first_start e)

/-- The body of `df_phases` after `df_rtapp_loop(task)`: operates on the
single-task event rows.  Output rows are `(start time, duration)`; the
column assignment `phases_df['duration'] = durations` raises `ValueError`
when the lengths differ. -/
def df_phases_raw (loops_df : List LoopEvent) : Except PyError (List (ℤ × ℤ)) :=
  let phases_df := dropDupKeepLast phaseKey loops_df
  let durations := everyOther (adjacentDiffs (phases_df.map (fun e => e.Time)))
  let starts := everyOther phases_df
  if starts.length = durations.length then
    .ok ((starts.map (fun e => e.Time)).zip durations)
  else .error .valueError

/-- `df_phases(task)`. -/
def df_phases (trace : List LoopEvent) (task : TaskID) :
    Except PyError (List (ℤ × ℤ)) := do
  let df ← df_rtapp_loop trace task
  df_phases_raw df

def toPhaseRow (e : LoopEvent) : PhaseRow :=
  ⟨e.Time, e.comm, e.pid, e.phase⟩

/-- `sort_values(by=['phase_loop', 'thread_loop'], ascending=False)`:
"x before y" in descending lexicographic `(phase_loop, thread_loop)`. -/
def endSortLE (x y : LoopEvent) : Bool :=
  (y.phase_loop < x.phase_loop) ||
    (y.phase_loop == x.phase_loop && y.thread_loop ≤ x.thread_loop)

def timeLE (x y : PhaseRow) : Bool :=
  decide (x.Time ≤ y.Time)

/-- `groupby(['__comm', '__pid', 'phase', 'event'])` key. -/
def groupKey (e : LoopEvent) : String × ℕ × ℕ × String :=
  (e.comm, e.pid, e.phase, e.event)

/-- `_get_rtapp_phases(event, task)`: filter one event kind, keep for each
phase the first `phase_loop == 0` start (resp. the end that is newest by
`(phase_loop, thread_loop)`), then reorder by the time index.  The
`sort_index()` happens before the column projection in the source; the two
commute, so the sort is applied to the projected rows here. -/
def _get_rtapp_phases_raw (df0 : List LoopEvent) (event : String) : List PhaseRow :=
  let df := df0.filter (fun e => e.event == event)
  let df :=
    if event == "start" then df.filter (fun e => e.phase_loop == 0)
    else if event == "end" then sortBy endSortLE df
    else df
  let df := groupbyHead1 groupKey df
  sortBy timeLE (df.map toPhaseRow)

def _get_rtapp_phases (trace : List LoopEvent) (event : String) (task : TaskID) :
    Except PyError (List PhaseRow) := do
  let df ← df_rtapp_loop trace task
  .ok (_get_rtapp_phases_raw df event)

/-- `_get_task_phase(event, task, phase)`: negative-index resolution
(`if phase and phase < 0: phase += len(df)`), then `phase += 1` and
`df.loc[task.comm].head(phase).tail(1).Time.values[0]`.  The resolution
uses the length of the table before the `.loc[task.comm]` selection, as in
the source. -/
def _get_task_phase_raw (df : List PhaseRow) (task : TaskID) (phase : ℤ) :
    Except PyError ℤ :=
  let phase := if phase ≠ 0 ∧ phase < 0 then phase + df.length else phase
  let phase := phase + 1
  let dfl := df.filter (fun r => r.comm == task.comm)
  (values0 (pyTail1 (pyHead phase dfl))).map (fun r => r.Time)

def _get_task_phase (trace : List LoopEvent) (event : String) (task : TaskID)
    (phase : ℤ) : Except PyError ℤ := do
  let df ← _get_rtapp_phases trace event task
  _get_task_phase_raw df task phase

/-- `df_rtapp_phase_start(task, phase)`. -/
def df_rtapp_phase_start (trace : List LoopEvent) (task : TaskID) (phase : ℤ) :
    Except PyError ℤ :=
  _get_task_phase trace "start" task phase

/-- `df_rtapp_phase_end(task, phase)`. -/
def df_rtapp_phase_end (trace : List LoopEvent) (task : TaskID) (phase : ℤ) :
    Except PyError ℤ :=
  _get_task_phase trace "end" task phase

/-- `task_phase_window(task, phase)`: `PhaseWindow(phase, start, end)` with
the `id` field recording the `phase` argument as passed. -/
def task_phase_window (trace : List LoopEvent) (task : TaskID) (phase : ℤ) :
    Except PyError PhaseWindow := do
  let phase_start ← df_rtapp_phase_start trace task phase
  let phase_end ← df_rtapp_phase_end trace task phase
  .ok ⟨phase, phase_start, phase_end⟩

/-- `trace.get_task_id(name)`: resolve a task name to a `TaskID` from the
events, `ValueError` when no task of that name exists. -/
def get_task_id (trace : List LoopEvent) (comm : String) : Except PyError TaskID :=
  match trace.find? (fun e => e.comm == comm) with
  | some e => .ok ⟨e.pid, comm⟩
  | none => .error .valueError

/-- `.index[-1]` / `.iloc[-1]`: last row, `IndexError` when empty. -/
def valuesLast {α : Type} (l : List α) : Except PyError α :=
  match l.getLast? with
  | some a => .ok a
  | none => .error .indexError

/-- `task_phase_at(task, timestamp)`.  Note the source's hardcoded
`'test_task-0'` in the last-phase-end computation, and the strict
comparisons `timestamp > last_phase_end` / `phase_id < 0`.
`len(df) - len(df[timestamp:]) - 1` counts rows of the phase table whose
start index is `< timestamp`, minus one. -/
def task_phase_at (trace : List LoopEvent) (task : TaskID) (timestamp : ℤ) :
    Except PyError (Option PhaseWindow) := do
  let t0 ← get_task_id trace "test_task-0"
  let tbl0 ← df_phases trace t0
  let lastRow ← valuesLast tbl0
  let last_phase_end := lastRow.1 + lastRow.2
  if timestamp > last_phase_end then
    .ok none
  else do
    let tbl ← df_phases trace task
    let phase_id : ℤ :=
      (tbl.length : ℤ) - ((tbl.filter (fun r => decide (timestamp ≤ r.1))).length : ℤ) - 1
    if phase_id < 0 then .ok none
    else (task_phase_window trace task phase_id).map some

/-- `task_phase_windows(task)`: the generator materialised as a list;
`PhaseWindow(idx, phase.Index, phase.Index + phase.duration)`. -/
def task_phase_windows (trace : List LoopEvent) (task : TaskID) :
    Except PyError (List PhaseWindow) := do
  let tbl ← df_phases trace task
  .ok (tbl.enum.map (fun ip => ⟨(ip.1 : ℤ), ip.2.1, ip.2.1 + ip.2.2⟩))

/-- One row of the `rtapp_task` event dataframe. -/
structure TaskEvent where
  Time : ℤ
  comm : String
  pid : ℕ
  event : String
deriving DecidableEq

/-- `tasks_window(task)`: first `start` and first `end` timestamp of the
task-filtered `rtapp_task` events (`.index[0]`). -/
def tasks_window (task_trace : List TaskEvent) (task : TaskID) :
    Except PyError (ℤ × ℤ) := do
  let task_df ← taskFiltered (fun e => e.pid) (fun e => e.comm) task_trace (some task)
  let start_time ← values0 ((task_df.filter (fun e => e.event == "start")).map (fun e => e.Time))
  let end_time ← values0 ((task_df.filter (fun e => e.event == "end")).map (fun e => e.Time))
  .ok (start_time, end_time)

/-- One row of the `rtapp_main` event dataframe. -/
structure MainEvent where
  Time : ℤ
  event : String
  data : Option ℤ
deriving DecidableEq

/-- `rtapp_window`: `(start, end)` of the rt-app main thread,
`df[df.event == 'start'].index.values[0]` etc. -/
def rtapp_window (df : List MainEvent) : Except PyError (ℤ × ℤ) := do
  let s ← values0 ((df.filter (fun e => e.event == "start")).map (fun e => e.Time))
  let e ← values0 ((df.filter (fun e => e.event == "end")).map (fun e => e.Time))
  .ok (s, e)

/-- One row of the `rtapp_stats` event dataframe (the columns the analysis
reads). -/
structure StatsRow where
  Time : ℤ
  comm : String
  pid : ℕ
  slack : ℚ
  c_period : ℚ
  c_run : ℚ
deriving DecidableEq

/-- A stats row with the `perf_index` column appended by `_get_stats`. -/
structure StatsRowP extends StatsRow where
  perf_index : ℚ
deriving DecidableEq

/-- `_get_stats`: `df['perf_index'] = df['slack'] / (df['c_period'] - df['c_run'])`,
an unguarded elementwise division. -/
def _get_stats (df : List StatsRow) : List StatsRowP :=
  df.map (fun r => { toStatsRow := r, perf_index := r.slack / (r.c_period - r.c_run) })

/-- `df_rtapp_stats(task)`. -/
def df_rtapp_stats (df : List StatsRow) (task : Option TaskID) :
    Except PyError (List StatsRowP) :=
  taskFiltered (fun r => r.pid) (fun r => r.comm) (_get_stats df) task

/-- "Strictly alternate start, end, start, end, ...": complete start/end
pairs. -/
def alternatesSE : List LoopEvent → Bool
  | [] => true
  | [_] => false
  | a :: b :: l => a.event == "start" && b.event == "end" && alternatesSE l

/-- The `rtapp_loop` events of a well-formed task run: phase `i` executes
once over `[s, e]`, emitting one `start` (with `phase_loop = 0`) and one
`end` marker, phases numbered consecutively from `i0` in temporal order. -/
def canonEvents (pid : ℕ) (comm : String) : ℕ → List (ℤ × ℤ) → List LoopEvent
  | _, [] => []
  | i, p :: ps =>
    ⟨p.1, comm, pid, "start", i, 0, 0⟩ :: ⟨p.2, comm, pid, "end", i, 0, 0⟩ ::
      canonEvents pid comm (i + 1) ps

/-- The interleaved timestamp sequence `s₀, e₀, s₁, e₁, ...` of such a run. -/
def canonTimes : List (ℤ × ℤ) → List ℤ
  | [] => []
  | p :: ps => p.1 :: p.2 :: canonTimes ps

/-- Temporal ordering of a well-formed run. -/
def canonSorted (ps : List (ℤ × ℤ)) : Prop :=
  List.Chain' (· ≤ ·) (canonTimes ps)

/-- The rows `_get_rtapp_phases` produces for a well-formed run:
one row per phase, carrying the selected boundary timestamp. -/
def canonRows (pid : ℕ) (comm : String) (sel : ℤ × ℤ → ℤ) :
    ℕ → List (ℤ × ℤ) → List PhaseRow
  | _, [] => []
  | i, p :: ps => ⟨sel p, comm, pid, i⟩ :: canonRows pid comm sel (i + 1) ps

/-- The `start` rows of a well-formed run (what the event filter of
`_get_rtapp_phases` keeps). -/
def canonStartEv (pid : ℕ) (comm : String) : ℕ → List (ℤ × ℤ) → List LoopEvent
  | _, [] => []
  | i, p :: ps => ⟨p.1, comm, pid, "start", i, 0, 0⟩ :: canonStartEv pid comm (i + 1) ps

/-- The `end` rows of a well-formed run. -/
def canonEndEv (pid : ℕ) (comm : String) : ℕ → List (ℤ × ℤ) → List LoopEvent
  | _, [] => []
  | i, p :: ps => ⟨p.2, comm, pid, "end", i, 0, 0⟩ :: canonEndEv pid comm (i + 1) ps

/-- The retention rule in the words of the claim (and of the source's own
comment "Keep only the first 'start' and the last 'end' event"), defined
for comparison with what `df_phases_raw` actually retains: for each phase
keep the first `start` with `phase_loop = 0` and the last `end`. -/
def claimRetention (ev : List LoopEvent) : List LoopEvent :=
  ev.filter (fun e =>
    (e.event == "start" && e.phase_loop == 0 &&
      ev.all (fun x =>
        !(x.event == "start" && x.phase_loop == 0 && x.phase == e.phase) ||
          e.Time ≤ x.Time)) ||
    (e.event == "end" &&
      ev.all (fun x => !(x.event == "end" && x.phase == e.phase) || x.Time ≤ e.Time)))

/-- The claim's phase table: retained events paired by temporal adjacency,
`(start, end - start)`. -/
def claimPhasesRule (ev : List LoopEvent) : List (ℤ × ℤ) :=
  specPairs ((claimRetention ev).map (fun e => e.Time))

def exEvents : List LoopEvent :=
  [⟨0, "test_task-0", 1000, "start", 0, 0, 0⟩,
   ⟨5, "test_task-0", 1000, "start", 0, 1, 0⟩,
   ⟨10, "test_task-0", 1000, "end", 0, 1, 0⟩,
   ⟨10, "test_task-0", 1000, "start", 1, 0, 0⟩,
   ⟨20, "test_task-0", 1000, "end", 1, 0, 0⟩]
def exTask : TaskID := ⟨1000, "test_task-0"⟩

def exRepeat : List LoopEvent :=
  [⟨0, "taskA", 1, "start", 0, 0, 0⟩,
   ⟨10, "taskA", 1, "end", 0, 0, 0⟩,
   ⟨20, "taskA", 1, "start", 0, 0, 1⟩,
   ⟨30, "taskA", 1, "end", 0, 0, 1⟩]
def exTaskA : TaskID := ⟨1, "taskA"⟩

def exTwoStarts : List LoopEvent :=
  [⟨0, "taskA", 1, "start", 0, 0, 0⟩, ⟨5, "taskA", 1, "start", 1, 0, 0⟩]

def exOnePhase : List LoopEvent :=
  [⟨0, "taskA", 1, "start", 0, 0, 0⟩, ⟨10, "taskA", 1, "end", 0, 0, 0⟩]


theorem length_everyOther {α : Type} : ∀ l : List α, (everyOther l).length = (l.length + 1) / 2
  | [] => by simp [everyOther]
  | [_] => by simp [everyOther]
  | a :: b :: l => by
    simp only [everyOther, List.length_cons, length_everyOther l]
    omega

theorem length_adjacentDiffs : ∀ l : List ℤ, (adjacentDiffs l).length = l.length - 1
  | [] => by simp [adjacentDiffs]
  | [_] => by simp [adjacentDiffs]
  | a :: b :: l => by
    simp only [adjacentDiffs, List.length_cons, length_adjacentDiffs (b :: l)]
    omega

theorem everyOther_map {α β : Type} (f : α → β) :
    ∀ l : List α, everyOther (l.map f) = (everyOther l).map f
  | [] => rfl
  | [_] => rfl
  | a :: b :: l => by
    simp only [List.map_cons, everyOther, everyOther_map f l]

theorem zip_everyOther_adjacentDiffs :
    ∀ l : List ℤ, (everyOther l).zip (everyOther (adjacentDiffs l)) = specPairs l
  | [] => rfl
  | [_] => rfl
  | [_, _] => rfl
  | a :: b :: c :: l => by
    have ih := zip_everyOther_adjacentDiffs (c :: l)
    simp only [everyOther, adjacentDiffs, specPairs, List.zip_cons_cons, ih]

/-- On an even number of retained rows the column assignment succeeds and
`df_phases` pairs the retained timestamps two at a time. -/
theorem df_phases_raw_eq_ok (ev : List LoopEvent)
    (h : Even (dropDupKeepLast phaseKey ev).length) :
    df_phases_raw ev =
      .ok (specPairs ((dropDupKeepLast phaseKey ev).map (fun e => e.Time))) := by
  unfold df_phases_raw
  have hlen : (everyOther (dropDupKeepLast phaseKey ev)).length =
      (everyOther (adjacentDiffs ((dropDupKeepLast phaseKey ev).map (fun e => e.Time)))).length := by
    rw [length_everyOther, length_everyOther, length_adjacentDiffs, List.length_map]
    obtain ⟨m, hm⟩ := h
    omega
  rw [if_pos hlen]
  rw [← zip_everyOther_adjacentDiffs, ← everyOther_map]

theorem dropDupKeepLast_sublist {α κ : Type} [BEq κ] (key : α → κ) :
    ∀ l : List α, List.Sublist (dropDupKeepLast key l) l
  | [] => List.Sublist.refl []
  | a :: l => by
    unfold dropDupKeepLast
    split
    · exact (dropDupKeepLast_sublist key l).cons a
    · exact (dropDupKeepLast_sublist key l).cons₂ a

theorem alternatesSE_even : ∀ l : List LoopEvent, alternatesSE l = true → Even l.length
  | [], _ => ⟨0, rfl⟩
  | [_], h => by simp [alternatesSE] at h
  | a :: b :: l, h => by
    simp only [alternatesSE, Bool.and_eq_true] at h
    obtain ⟨m, hm⟩ := alternatesSE_even l h.2
    exact ⟨m + 1, by simp only [List.length_cons]; omega⟩

theorem specPairs_fst_mem : ∀ l : List ℤ, ∀ q ∈ specPairs l, q.1 ∈ l
  | [], q, hq => by simp [specPairs] at hq
  | [_], q, hq => by simp [specPairs] at hq
  | a :: b :: l, q, hq => by
    simp only [specPairs, List.mem_cons] at hq
    rcases hq with rfl | hq
    · simp
    · have := specPairs_fst_mem l q hq
      simp [this]

theorem specPairs_nonneg : ∀ l : List ℤ, l.Pairwise (· ≤ ·) → ∀ p ∈ specPairs l, 0 ≤ p.2
  | [], _, p, hp => by simp [specPairs] at hp
  | [_], _, p, hp => by simp [specPairs] at hp
  | a :: b :: l, h, p, hp => by
    rw [List.pairwise_cons] at h
    simp only [specPairs, List.mem_cons] at hp
    rcases hp with rfl | hp
    · have : a ≤ b := h.1 b (by simp)
      simp only
      omega
    · have h2 := h.2
      rw [List.pairwise_cons] at h2
      exact specPairs_nonneg l h2.2 p hp

theorem specPairs_pairwise : ∀ l : List ℤ, l.Pairwise (· ≤ ·) →
    (specPairs l).Pairwise (fun p q : ℤ × ℤ => p.1 + p.2 ≤ q.1)
  | [], _ => by simp [specPairs]
  | [_], _ => by simp [specPairs]
  | a :: b :: l, h => by
    rw [List.pairwise_cons] at h
    have hb := h.2
    rw [List.pairwise_cons] at hb
    refine List.Pairwise.cons ?_ (specPairs_pairwise l hb.2)
    intro q hq
    have hq1 : q.1 ∈ l := specPairs_fst_mem l q hq
    have hle : b ≤ q.1 := hb.1 _ hq1
    simp only
    omega

/-- C7: for every time-ordered task event sequence whose retained events
strictly alternate start, end, ..., the `df_phases` windows have
non-negative duration (`start_time ≤ end_time`) and are pairwise
non-overlapping and sorted by start time (each window ends no later than
the next one starts), so positional phase order is temporal order. -/
theorem rta_C7_invariants (ev : List LoopEvent)
    (hsort : ev.Pairwise (fun a b => a.Time ≤ b.Time))
    (halt : alternatesSE (dropDupKeepLast phaseKey ev) = true) :
    ∃ tbl, df_phases_raw ev = .ok tbl ∧ (∀ p ∈ tbl, 0 ≤ p.2) ∧
      tbl.Pairwise (fun p q : ℤ × ℤ => p.1 + p.2 ≤ q.1) := by
  have heven := alternatesSE_even _ halt
  have hsub := dropDupKeepLast_sublist phaseKey ev
  have hp : (dropDupKeepLast phaseKey ev).Pairwise (fun a b => a.Time ≤ b.Time) :=
    List.Pairwise.sublist hsub hsort
  have ht : ((dropDupKeepLast phaseKey ev).map (fun e => e.Time)).Pairwise (· ≤ ·) :=
    List.pairwise_map.mpr hp
  exact ⟨_, df_phases_raw_eq_ok ev heven, specPairs_nonneg _ ht, specPairs_pairwise _ ht⟩

theorem rta_C7_invariants_witness :
    (exEvents.Pairwise (fun a b => a.Time ≤ b.Time) ∧
      alternatesSE (dropDupKeepLast phaseKey exEvents) = true) ∧
    (∃ tbl, df_phases_raw exEvents = .ok tbl ∧ (∀ p ∈ tbl, 0 ≤ p.2) ∧
      tbl.Pairwise (fun p q : ℤ × ℤ => p.1 + p.2 ≤ q.1)) :=
  ⟨⟨by decide, by decide⟩, rta_C7_invariants exEvents (by decide) (by decide)⟩

/-- C1: on a task whose phase 0 runs twice (thread loops 0 and 1), the
claim's retention rule (first `phase_loop = 0` start, last end — also the
source's own comment) yields the window `(0, 30)`, but `df_phases`'
`drop_duplicates(keep='last')` retains the *last* `phase_loop = 0` start,
producing `(20, 10)` instead. -/
theorem rta_C1_failing_eval :
    claimPhasesRule exRepeat = [(0, 30)] ∧
    df_phases_raw exRepeat = .ok [(20, 10)] := by
  exact ⟨by decide, by decide⟩

/-- C2: an input consisting of two consecutive `start` events with no
intervening `end` is not rejected: `df_phases` silently pairs the two
starts into the bogus window `(0, 5)`.  No `MalformedSequenceError` (nor
any alternation check) exists in the code. -/
theorem rta_C2_failing_eval :
    exTwoStarts.map (fun e => e.event) = ["start", "start"] ∧
    df_phases_raw exTwoStarts = .ok [(0, 5)] := by
  exact ⟨by decide, by decide⟩

/-- C3 counterexample: on the spec's own example table `[(0,10),(10,10)]`,
timestamp 10 lies in the half-open interval `[10, 20)` of phase 1, yet
`task_phase_at` returns phase 0's window `(0, 0, 10)` — whose half-open
interval `[0, 10)` does *not* contain 10.  The slice `df[timestamp:]` makes
the contains test effectively `start < t ≤ end`, not `start ≤ t < end`. -/
theorem rta_C3_counterexample :
    task_phase_at exEvents exTask 10 = .ok (some ⟨0, 0, 10⟩) ∧
    ¬ ((0 : ℤ) ≤ 10 ∧ (10 : ℤ) < 0 + 10) := by
  exact ⟨by decide, by decide⟩

/-- C4: the spec's worked example, for a task named `test_task-0` (the name
`task_phase_at` hardcodes): the derived table is `[(0,10),(10,10)]`,
`task_phase_at` at 15 returns window `(1, 10, 20)` and at 25 returns
`None`. -/
theorem rta_C4_example :
    df_phases exEvents exTask = .ok [(0, 10), (10, 10)] ∧
    task_phase_at exEvents exTask 15 = .ok (some ⟨1, 10, 20⟩) ∧
    task_phase_at exEvents exTask 25 = .ok none := by
  exact ⟨by decide, by decide, by decide⟩

/-- C5 counterexample: for a table with a single phase (N = 1), the
out-of-range request `phase = 5` does not fail: `head(6).tail(1)` silently
clamps to the last row and `task_phase_window` returns `(5, 0, 10)`. -/
theorem rta_C5_counterexample :
    Except.map List.length (_get_rtapp_phases exOnePhase "start" exTaskA) = .ok 1 ∧
    task_phase_window exOnePhase exTaskA 5 = .ok ⟨5, 0, 10⟩ := by
  exact ⟨by decide, by decide⟩

/-- C6 counterexample: for a one-phase table (N = 1), `phase_window` at -1
and at N-1 = 0 agree on start and end but differ in the returned
`PhaseWindow.id` field, which records the index as passed, so the two
results are not equal. -/
theorem rta_C6_counterexample :
    task_phase_window exOnePhase exTaskA (-1) = .ok ⟨-1, 0, 10⟩ ∧
    task_phase_window exOnePhase exTaskA 0 = .ok ⟨0, 0, 10⟩ ∧
    task_phase_window exOnePhase exTaskA (-1) ≠ task_phase_window exOnePhase exTaskA 0 := by
  exact ⟨by decide, by decide, by decide⟩

/-- C8 counterexample: `exRepeat` is a valid sequence (its retained events
alternate start, end), yet `task_phase_window 0` computes the start from
the *first* `phase_loop = 0` start event (`_get_rtapp_phases`) giving
`(0, 0, 30)`, while `task_phase_windows` takes it from `df_phases` (which
keeps the *last* one) giving `(0, 20, 30)`. -/
theorem rta_C8_counterexample :
    alternatesSE (dropDupKeepLast phaseKey exRepeat) = true ∧
    task_phase_window exRepeat exTaskA 0 = .ok ⟨0, 0, 30⟩ ∧
    task_phase_windows exRepeat exTaskA = .ok [⟨0, 20, 30⟩] := by
  exact ⟨by decide, by decide, by decide⟩

/-- C9: the "missing task / empty table" conditions do not surface as one
`EmptyInputError` (no such error exists in the code): `rtapp_window` on an
empty table raises `IndexError`, `tasks_window` on an empty table raises
`ValueError` (from `_task_filtered`'s unknown-task check), and
`tasks_window` for a task with no `end` event raises `IndexError`. -/
theorem rta_C9_failing_eval :
    rtapp_window ([] : List MainEvent) = .error .indexError ∧
    tasks_window ([] : List TaskEvent) ⟨1, "taskA"⟩ = .error .valueError ∧
    tasks_window [⟨0, "taskA", 1, "start"⟩] ⟨1, "taskA"⟩ = .error .indexError := by
  exact ⟨by decide, by decide, by decide⟩

/-- C10: every row of `df_rtapp_stats` carries
`perf_index = slack / (c_period - c_run)`; `_get_stats` computes the
division unguarded, so `c_period ≠ c_run` is a precondition, not a handled
case. -/
theorem rta_C10_perf_index (df : List StatsRow) (task : Option TaskID)
    (out : List StatsRowP) (h : df_rtapp_stats df task = .ok out) :
    ∀ r ∈ out, r.c_period ≠ r.c_run →
      r.perf_index = r.slack / (r.c_period - r.c_run) := by
  intro r hr _
  have hmem : r ∈ _get_stats df := by
    unfold df_rtapp_stats taskFiltered at h
    cases task with
    | none =>
      injection h with h
      rw [← h] at hr
      exact hr
    | some t =>
      simp only at h
      split at h
      · injection h with h
        rw [← h] at hr
        exact List.mem_of_mem_filter hr
      · cases h
  unfold _get_stats at hmem
  obtain ⟨s, _, rfl⟩ := List.mem_map.mp hmem
  rfl

theorem rta_C10_perf_index_witness :
    df_rtapp_stats [⟨0, "t", 1, 3, 10, 4⟩] none = .ok (_get_stats [⟨0, "t", 1, 3, 10, 4⟩]) ∧
    ∀ r ∈ _get_stats [⟨0, "t", 1, 3, 10, 4⟩], r.c_period ≠ r.c_run →
      r.perf_index = r.slack / (r.c_period - r.c_run) :=
  ⟨rfl, rta_C10_perf_index _ none _ rfl⟩

theorem sortBy_cons {α : Type} (le : α → α → Bool) (a : α) (l : List α) :
    sortBy le (a :: l) = insertSorted le a (sortBy le l) := rfl

theorem mem_insertSorted {α : Type} (le : α → α → Bool) (a x : α) :
    ∀ l : List α, x ∈ insertSorted le a l ↔ x = a ∨ x ∈ l
  | [] => by simp [insertSorted]
  | b :: l => by
    unfold insertSorted
    split
    · simp only [List.mem_cons]
    · simp only [List.mem_cons, mem_insertSorted le a x l]
      tauto

theorem mem_sortBy {α : Type} (le : α → α → Bool) (x : α) :
    ∀ l : List α, x ∈ sortBy le l ↔ x ∈ l
  | [] => Iff.rfl
  | a :: l => by
    rw [sortBy_cons, mem_insertSorted, mem_sortBy le x l, List.mem_cons]

theorem mem_groupbyHead1Aux {α κ : Type} [DecidableEq κ] (key : α → κ) (x : α) :
    ∀ (seen : List κ) (l : List α), x ∈ groupbyHead1Aux key seen l → x ∈ l
  | _, [], h => by simp [groupbyHead1Aux] at h
  | seen, a :: l, h => by
    unfold groupbyHead1Aux at h
    split at h
    · exact List.mem_cons_of_mem a (mem_groupbyHead1Aux key x _ l h)
    · rcases List.mem_cons.mp h with h | h
      · rw [h]; exact List.mem_cons_self _ _
      · exact List.mem_cons_of_mem _ (mem_groupbyHead1Aux key x _ l h)

theorem mem_groupbyHead1 {α κ : Type} [DecidableEq κ] (key : α → κ) (x : α)
    (l : List α) (h : x ∈ groupbyHead1 key l) : x ∈ l :=
  mem_groupbyHead1Aux key x [] l h

/-- Every row `_get_rtapp_phases` returns belongs to the task that was
filtered for. -/
theorem gRP_comm (trace : List LoopEvent) (event : String) (task : TaskID)
    (l : List PhaseRow) (h : _get_rtapp_phases trace event task = .ok l) :
    ∀ r ∈ l, r.comm = task.comm := by
  intro r hr
  unfold _get_rtapp_phases df_rtapp_loop taskFiltered at h
  simp only at h
  split at h
  case isTrue =>
    injection h with h
    rw [← h] at hr
    unfold _get_rtapp_phases_raw at hr
    rw [mem_sortBy] at hr
    obtain ⟨e, he, rfl⟩ := List.mem_map.mp hr
    have he2 := mem_groupbyHead1 _ _ _ he
    have he3 : e ∈ (trace.filter
        (fun x => x.pid == task.pid && x.comm == task.comm)).filter
        (fun x => x.event == event) := by
      split at he2
      · exact List.mem_of_mem_filter he2
      · split at he2
        · rw [mem_sortBy] at he2
          exact he2
        · exact he2
    have he4 := List.mem_of_mem_filter he3
    have he5 := List.of_mem_filter he4
    have h6 := (Bool.and_eq_true _ _).mp he5
    exact beq_iff_eq.mp h6.2
  case isFalse => cases h

theorem pyTail1_cons_cons {α : Type} (a b : α) (l : List α) :
    pyTail1 (a :: b :: l) = pyTail1 (b :: l) := by
  simp only [pyTail1, List.length_cons]
  rw [show l.length + 1 + 1 - 1 = l.length + 1 by omega]
  rw [List.drop_succ_cons]
  simp only [Nat.add_sub_cancel]

theorem pyTail1_eq_getLast {α : Type} :
    ∀ (l : List α) (h : l ≠ []), pyTail1 l = [l.getLast h]
  | [_], _ => rfl
  | a :: b :: l, _ => by
    rw [pyTail1_cons_cons]
    rw [pyTail1_eq_getLast (b :: l) (by simp)]
    congr 1

theorem pyTail1_take {α : Type} :
    ∀ (l : List α) (k : ℕ) (hk : k < l.length),
      pyTail1 (l.take (k + 1)) = [l.get ⟨k, hk⟩]
  | a :: l, 0, _ => by simp [pyTail1, List.take]
  | a :: l, k + 1, hk => by
    have hk' : k < l.length := by simpa using hk
    have ih := pyTail1_take l k hk'
    simp only [List.take_succ_cons]
    have hne : l.take (k + 1) ≠ [] := by
      have hlt : (l.take (k + 1)).length = k + 1 := by
        rw [List.length_take]; omega
      intro hc
      rw [hc] at hlt
      simp at hlt
    cases htk : l.take (k + 1) with
    | nil => exact absurd htk hne
    | cons b t =>
      rw [pyTail1_cons_cons a b t, ← htk, ih]
      simp [List.get]

/-- In-range non-negative index: the `head(phase+1).tail(1)` idiom selects
the `phase`-th row. -/
theorem gtp_raw_get (df : List PhaseRow) (task : TaskID) (j : ℕ)
    (hall : ∀ r ∈ df, r.comm = task.comm) (hj : j < df.length) :
    _get_task_phase_raw df task (j : ℤ) = .ok (df.get ⟨j, hj⟩).Time := by
  simp only [_get_task_phase_raw]
  rw [if_neg (by omega)]
  rw [List.filter_eq_self.mpr (fun r hr => beq_iff_eq.mpr (hall r hr))]
  have h1 : pyHead ((j : ℤ) + 1) df = df.take (j + 1) := by
    have h2 : ((j : ℤ) + 1).toNat = j + 1 := by omega
    rw [pyHead, if_pos (by omega), h2]
  rw [h1, pyTail1_take df j hj]
  rfl

/-- Index at or beyond the table length: `head` clamps, `tail(1)` silently
returns the last row. -/
theorem gtp_raw_large (df : List PhaseRow) (task : TaskID) (k : ℤ)
    (hall : ∀ r ∈ df, r.comm = task.comm) (hne : df ≠ [])
    (hk : (df.length : ℤ) ≤ k) :
    _get_task_phase_raw df task k = .ok (df.getLast hne).Time := by
  simp only [_get_task_phase_raw]
  have hlen : 0 < df.length := List.length_pos.mpr hne
  rw [if_neg (by omega)]
  rw [List.filter_eq_self.mpr (fun r hr => beq_iff_eq.mpr (hall r hr))]
  have h1 : pyHead (k + 1) df = df := by
    rw [pyHead, if_pos (by omega)]
    exact List.take_of_length_le (by omega)
  rw [h1, pyTail1_eq_getLast df hne]
  rfl

/-- Negative index resolution: `phase += len(df)`. -/
theorem gtp_raw_neg (df : List PhaseRow) (task : TaskID) (k : ℤ)
    (h1 : -(df.length : ℤ) ≤ k) (h2 : k ≤ -1) :
    _get_task_phase_raw df task k = _get_task_phase_raw df task (k + df.length) := by
  simp only [_get_task_phase_raw]
  rw [if_pos ⟨by omega, by omega⟩, if_neg (by omega)]

theorem ok_bind {ε α β : Type} (a : α) (f : α → Except ε β) :
    (Except.ok a >>= f : Except ε β) = f a := rfl

theorem error_bind {ε α β : Type} (e : ε) (f : α → Except ε β) :
    (Except.error e >>= f : Except ε β) = .error e := rfl

/-- C5 amended: `_get_task_phase` resolves a negative index by adding the
table length, but an index at or beyond `N` is not rejected: the
`head(phase+1).tail(1)` idiom clamps and `task_phase_window` silently
returns the last phase's boundaries (with the requested index in `id`).
No `IndexOutOfRange`-style failure exists for too-large indices. -/
theorem rta_C5_amended (trace : List LoopEvent) (task : TaskID) (k : ℤ)
    (st en : List PhaseRow)
    (hs : _get_rtapp_phases trace "start" task = .ok st)
    (he : _get_rtapp_phases trace "end" task = .ok en)
    (hne1 : st ≠ []) (hne2 : en ≠ [])
    (hk1 : (st.length : ℤ) ≤ k) (hk2 : (en.length : ℤ) ≤ k) :
    task_phase_window trace task k =
      .ok ⟨k, (st.getLast hne1).Time, (en.getLast hne2).Time⟩ := by
  have hc1 := gRP_comm trace "start" task st hs
  have hc2 := gRP_comm trace "end" task en he
  unfold task_phase_window df_rtapp_phase_start df_rtapp_phase_end _get_task_phase
  rw [hs, he]
  simp only [ok_bind]
  rw [gtp_raw_large st task k hc1 hne1 hk1, gtp_raw_large en task k hc2 hne2 hk2]
  rfl

theorem rta_C5_amended_witness :
    task_phase_window exOnePhase exTaskA 5 = .ok ⟨5, 0, 10⟩ := by
  have h := rta_C5_amended exOnePhase exTaskA 5
    [⟨0, "taskA", 1, 0⟩] [⟨10, "taskA", 1, 0⟩]
    (by decide) (by decide) (by decide) (by decide) (by decide) (by decide)
  exact h

/-- C6 amended: for `-N ≤ k ≤ -1` on an `N`-phase table, `phase_window` at
`k` and at `k + N` return identical start and end timestamps; only the
`PhaseWindow.id` field, which records the index as passed, differs. -/
theorem rta_C6_amended (trace : List LoopEvent) (task : TaskID) (k : ℤ) (N : ℕ)
    (st en : List PhaseRow)
    (hs : _get_rtapp_phases trace "start" task = .ok st)
    (he : _get_rtapp_phases trace "end" task = .ok en)
    (hNs : st.length = N) (hNe : en.length = N)
    (hk1 : -(N : ℤ) ≤ k) (hk2 : k ≤ -1) :
    Except.map (fun w : PhaseWindow => (w.start, w.stop)) (task_phase_window trace task k) =
      Except.map (fun w : PhaseWindow => (w.start, w.stop))
        (task_phase_window trace task (k + N)) := by
  unfold task_phase_window df_rtapp_phase_start df_rtapp_phase_end _get_task_phase
  rw [hs, he]
  simp only [ok_bind]
  rw [gtp_raw_neg st task k (by omega) hk2, gtp_raw_neg en task k (by omega) hk2]
  rw [hNs, hNe]
  cases _get_task_phase_raw st task (k + N) <;>
    cases _get_task_phase_raw en task (k + N) <;>
    rfl

theorem rta_C6_amended_witness :
    Except.map (fun w : PhaseWindow => (w.start, w.stop))
        (task_phase_window exOnePhase exTaskA (-1)) =
      Except.map (fun w : PhaseWindow => (w.start, w.stop))
        (task_phase_window exOnePhase exTaskA (-1 + (1 : ℕ))) := by
  have h := rta_C6_amended exOnePhase exTaskA (-1) 1
    [⟨0, "taskA", 1, 0⟩] [⟨10, "taskA", 1, 0⟩]
    (by decide) (by decide) (by decide) (by decide) (by decide) (by decide)
  exact h

theorem canonEvents_pid_comm (pid : ℕ) (comm : String) :
    ∀ (i : ℕ) (ps : List (ℤ × ℤ)), ∀ e ∈ canonEvents pid comm i ps,
      e.pid = pid ∧ e.comm = comm
  | _, [], e, he => by simp [canonEvents] at he
  | i, p :: ps, e, he => by
    simp only [canonEvents, List.mem_cons] at he
    rcases he with h | h | h
    · rw [h]; exact ⟨rfl, rfl⟩
    · rw [h]; exact ⟨rfl, rfl⟩
    · exact canonEvents_pid_comm pid comm (i + 1) ps e h

theorem canonEvents_phase_lb (pid : ℕ) (comm : String) :
    ∀ (i : ℕ) (ps : List (ℤ × ℤ)), ∀ e ∈ canonEvents pid comm i ps, i ≤ e.phase
  | _, [], e, he => by simp [canonEvents] at he
  | i, p :: ps, e, he => by
    simp only [canonEvents, List.mem_cons] at he
    rcases he with h | h | h
    · rw [h]
    · rw [h]
    · exact le_trans (Nat.le_succ i) (canonEvents_phase_lb pid comm (i + 1) ps e h)

theorem df_rtapp_loop_canon (pid : ℕ) (comm : String) (ps : List (ℤ × ℤ))
    (hne : ps ≠ []) :
    df_rtapp_loop (canonEvents pid comm 0 ps) ⟨pid, comm⟩ =
      .ok (canonEvents pid comm 0 ps) := by
  unfold df_rtapp_loop taskFiltered
  simp only
  have hany : (canonEvents pid comm 0 ps).any
      (fun e => e.pid == pid && e.comm == comm) = true := by
    cases ps with
    | nil => exact absurd rfl hne
    | cons p ps =>
      simp [canonEvents, List.any_cons]
  rw [if_pos hany]
  congr 1
  exact List.filter_eq_self.mpr fun e he => by
    have h := canonEvents_pid_comm pid comm 0 ps e he
    simp [h.1, h.2]

theorem dropDupKeepLast_cons_false {α κ : Type} [BEq κ] (key : α → κ)
    (a : α) (l : List α) (h : l.any (fun b => key b == key a) = false) :
    dropDupKeepLast key (a :: l) = a :: dropDupKeepLast key l := by
  simp only [dropDupKeepLast]
  rw [h]
  simp

theorem dropDup_canon (pid : ℕ) (comm : String) :
    ∀ (i : ℕ) (ps : List (ℤ × ℤ)),
      dropDupKeepLast phaseKey (canonEvents pid comm i ps) = canonEvents pid comm i ps
  | _, [] => rfl
  | i, p :: ps => by
    have ih := dropDup_canon pid comm (i + 1) ps
    have hk1 : phaseKey (⟨p.1, comm, pid, "start", i, 0, 0⟩ : LoopEvent) = (i, 0) := by
      simp [phaseKey, keep_first_start]
    have hk2 : phaseKey (⟨p.2, comm, pid, "end", i, 0, 0⟩ : LoopEvent) = (i, -1) := by
      simp [phaseKey, keep_first_start]
    have hrest : ∀ e ∈ canonEvents pid comm (i + 1) ps, e.phase ≠ i := by
      intro e he
      have := canonEvents_phase_lb pid comm (i + 1) ps e he
      omega
    have hc1 : ((⟨p.2, comm, pid, "end", i, 0, 0⟩ : LoopEvent) ::
        canonEvents pid comm (i + 1) ps).any
          (fun b => phaseKey b == phaseKey (⟨p.1, comm, pid, "start", i, 0, 0⟩ : LoopEvent)) =
        false := by
      rw [List.any_eq_false]
      intro b hb hcontra
      rw [hk1] at hcontra
      have hb2 : phaseKey b = (i, 0) := beq_iff_eq.mp hcontra
      rcases List.mem_cons.mp hb with h | h
      · rw [h, hk2] at hb2
        simp at hb2
      · have hbp : b.phase = i := congrArg Prod.fst hb2
        exact hrest b h hbp
    have hc2 : (canonEvents pid comm (i + 1) ps).any
          (fun b => phaseKey b == phaseKey (⟨p.2, comm, pid, "end", i, 0, 0⟩ : LoopEvent)) =
        false := by
      rw [List.any_eq_false]
      intro b hb hcontra
      rw [hk2] at hcontra
      have hb2 : phaseKey b = (i, -1) := beq_iff_eq.mp hcontra
      have hbp : b.phase = i := congrArg Prod.fst hb2
      exact hrest b hb hbp
    show dropDupKeepLast phaseKey
        ((⟨p.1, comm, pid, "start", i, 0, 0⟩ : LoopEvent) ::
          (⟨p.2, comm, pid, "end", i, 0, 0⟩ : LoopEvent) ::
          canonEvents pid comm (i + 1) ps) = _
    rw [dropDupKeepLast_cons_false _ _ _ hc1, dropDupKeepLast_cons_false _ _ _ hc2, ih]
    rfl

theorem canonEvents_map_time (pid : ℕ) (comm : String) :
    ∀ (i : ℕ) (ps : List (ℤ × ℤ)),
      (canonEvents pid comm i ps).map (fun e => e.Time) = canonTimes ps
  | _, [] => rfl
  | i, p :: ps => by
    simp only [canonEvents, List.map_cons, canonTimes]
    rw [canonEvents_map_time pid comm (i + 1) ps]

theorem canonEvents_length (pid : ℕ) (comm : String) :
    ∀ (i : ℕ) (ps : List (ℤ × ℤ)),
      (canonEvents pid comm i ps).length = 2 * ps.length
  | _, [] => rfl
  | i, p :: ps => by
    simp only [canonEvents, List.length_cons, canonEvents_length pid comm (i + 1) ps]
    omega

theorem specPairs_canonTimes :
    ∀ ps : List (ℤ × ℤ), specPairs (canonTimes ps) = ps.map (fun p => (p.1, p.2 - p.1))
  | [] => rfl
  | p :: ps => by
    simp only [canonTimes, specPairs, List.map_cons, specPairs_canonTimes ps]

theorem df_phases_raw_canon (pid : ℕ) (comm : String) (i : ℕ) (ps : List (ℤ × ℤ)) :
    df_phases_raw (canonEvents pid comm i ps) =
      .ok (ps.map (fun p => (p.1, p.2 - p.1))) := by
  have heven : Even (dropDupKeepLast phaseKey (canonEvents pid comm i ps)).length := by
    rw [dropDup_canon, canonEvents_length]
    exact ⟨ps.length, by omega⟩
  rw [df_phases_raw_eq_ok _ heven, dropDup_canon, canonEvents_map_time,
    specPairs_canonTimes]

theorem df_phases_canon (pid : ℕ) (comm : String) (ps : List (ℤ × ℤ))
    (hne : ps ≠ []) :
    df_phases (canonEvents pid comm 0 ps) ⟨pid, comm⟩ =
      .ok (ps.map (fun p => (p.1, p.2 - p.1))) := by
  unfold df_phases
  rw [df_rtapp_loop_canon pid comm ps hne]
  rw [ok_bind]
  exact df_phases_raw_canon pid comm 0 ps

theorem canon_filter_start (pid : ℕ) (comm : String) :
    ∀ (i : ℕ) (ps : List (ℤ × ℤ)),
      (canonEvents pid comm i ps).filter (fun e => e.event == "start") =
        canonStartEv pid comm i ps
  | _, [] => rfl
  | i, p :: ps => by
    simp only [canonEvents, canonStartEv, List.filter_cons]
    simp only [show ((("start" : String) == "start") = true) from rfl,
      show ((("end" : String) == "start") = false) from rfl]
    simp only [if_true, Bool.false_eq_true, if_false]
    rw [canon_filter_start pid comm (i + 1) ps]

theorem canon_filter_end (pid : ℕ) (comm : String) :
    ∀ (i : ℕ) (ps : List (ℤ × ℤ)),
      (canonEvents pid comm i ps).filter (fun e => e.event == "end") =
        canonEndEv pid comm i ps
  | _, [] => rfl
  | i, p :: ps => by
    simp only [canonEvents, canonEndEv, List.filter_cons]
    simp only [show ((("start" : String) == "end") = false) from rfl,
      show ((("end" : String) == "end") = true) from rfl]
    simp only [if_true, Bool.false_eq_true, if_false]
    rw [canon_filter_end pid comm (i + 1) ps]

theorem canonStartEv_filter_pl (pid : ℕ) (comm : String) :
    ∀ (i : ℕ) (ps : List (ℤ × ℤ)),
      (canonStartEv pid comm i ps).filter (fun e => e.phase_loop == 0) =
        canonStartEv pid comm i ps
  | _, [] => rfl
  | i, p :: ps => by
    simp only [canonStartEv, List.filter_cons]
    simp only [show (((0 : ℕ) == 0) = true) from rfl, if_true]
    rw [canonStartEv_filter_pl pid comm (i + 1) ps]

theorem canonStartEv_map_row (pid : ℕ) (comm : String) :
    ∀ (i : ℕ) (ps : List (ℤ × ℤ)),
      (canonStartEv pid comm i ps).map toPhaseRow = canonRows pid comm Prod.fst i ps
  | _, [] => rfl
  | i, p :: ps => by
    simp only [canonStartEv, List.map_cons, canonRows, toPhaseRow]
    rw [canonStartEv_map_row pid comm (i + 1) ps]

theorem canonEndEv_map_row (pid : ℕ) (comm : String) :
    ∀ (i : ℕ) (ps : List (ℤ × ℤ)),
      (canonEndEv pid comm i ps).map toPhaseRow = canonRows pid comm Prod.snd i ps
  | _, [] => rfl
  | i, p :: ps => by
    simp only [canonEndEv, List.map_cons, canonRows, toPhaseRow]
    rw [canonEndEv_map_row pid comm (i + 1) ps]

theorem canonStartEv_phase_lb (pid : ℕ) (comm : String) :
    ∀ (i : ℕ) (ps : List (ℤ × ℤ)), ∀ e ∈ canonStartEv pid comm i ps, i ≤ e.phase
  | _, [], e, he => by simp [canonStartEv] at he
  | i, p :: ps, e, he => by
    simp only [canonStartEv, List.mem_cons] at he
    rcases he with h | h
    · rw [h]
    · exact le_trans (Nat.le_succ i) (canonStartEv_phase_lb pid comm (i + 1) ps e h)

theorem canonEndEv_phase_lb (pid : ℕ) (comm : String) :
    ∀ (i : ℕ) (ps : List (ℤ × ℤ)), ∀ e ∈ canonEndEv pid comm i ps, i ≤ e.phase
  | _, [], e, he => by simp [canonEndEv] at he
  | i, p :: ps, e, he => by
    simp only [canonEndEv, List.mem_cons] at he
    rcases he with h | h
    · rw [h]
    · exact le_trans (Nat.le_succ i) (canonEndEv_phase_lb pid comm (i + 1) ps e h)

theorem groupbyHead1Aux_eq_self {α κ : Type} [DecidableEq κ] (key : α → κ) :
    ∀ (seen : List κ) (l : List α), (∀ x ∈ l, key x ∉ seen) → (l.map key).Nodup →
      groupbyHead1Aux key seen l = l
  | _, [], _, _ => rfl
  | seen, a :: l, hs, hn => by
    simp only [List.map_cons, List.nodup_cons] at hn
    unfold groupbyHead1Aux
    rw [if_neg (hs a (List.mem_cons_self a l))]
    congr 1
    refine groupbyHead1Aux_eq_self key _ l ?_ hn.2
    intro x hx
    simp only [List.mem_cons]
    push_neg
    constructor
    · intro hc
      exact hn.1 (hc ▸ List.mem_map_of_mem key hx)
    · exact hs x (List.mem_cons_of_mem a hx)

theorem canonStartEv_keys_nodup (pid : ℕ) (comm : String) :
    ∀ (i : ℕ) (ps : List (ℤ × ℤ)), ((canonStartEv pid comm i ps).map groupKey).Nodup
  | _, [] => List.nodup_nil
  | i, p :: ps => by
    simp only [canonStartEv, List.map_cons, List.nodup_cons]
    refine ⟨?_, canonStartEv_keys_nodup pid comm (i + 1) ps⟩
    intro hc
    obtain ⟨e, he, heq⟩ := List.mem_map.mp hc
    have hlb := canonStartEv_phase_lb pid comm (i + 1) ps e he
    have hph : e.phase = i := by
      have h2 := congrArg (fun q : String × ℕ × ℕ × String => q.2.2.1) heq
      simpa [groupKey] using h2
    omega

theorem canonEndEv_keys_nodup (pid : ℕ) (comm : String) :
    ∀ (i : ℕ) (ps : List (ℤ × ℤ)), ((canonEndEv pid comm i ps).map groupKey).Nodup
  | _, [] => List.nodup_nil
  | i, p :: ps => by
    simp only [canonEndEv, List.map_cons, List.nodup_cons]
    refine ⟨?_, canonEndEv_keys_nodup pid comm (i + 1) ps⟩
    intro hc
    obtain ⟨e, he, heq⟩ := List.mem_map.mp hc
    have hlb := canonEndEv_phase_lb pid comm (i + 1) ps e he
    have hph : e.phase = i := by
      have h2 := congrArg (fun q : String × ℕ × ℕ × String => q.2.2.1) heq
      simpa [groupKey] using h2
    omega

theorem canonEndEv_pl_tl (pid : ℕ) (comm : String) :
    ∀ (i : ℕ) (ps : List (ℤ × ℤ)), ∀ e ∈ canonEndEv pid comm i ps,
      e.phase_loop = 0 ∧ e.thread_loop = 0
  | _, [], e, he => by simp [canonEndEv] at he
  | i, p :: ps, e, he => by
    simp only [canonEndEv, List.mem_cons] at he
    rcases he with h | h
    · rw [h]; exact ⟨rfl, rfl⟩
    · exact canonEndEv_pl_tl pid comm (i + 1) ps e h

theorem chain'_all {α : Type} (R : α → α → Prop) :
    ∀ l : List α, (∀ a ∈ l, ∀ b ∈ l, R a b) → List.Chain' R l
  | [], _ => List.chain'_nil
  | [_], _ => List.chain'_singleton _
  | a :: b :: l, h => by
    rw [List.chain'_cons]
    refine ⟨h a (by simp) b (by simp), chain'_all R (b :: l) ?_⟩
    intro x hx y hy
    exact h x (List.mem_cons_of_mem a hx) y (List.mem_cons_of_mem a hy)

theorem sortBy_eq_self {α : Type} (le : α → α → Bool) :
    ∀ l : List α, List.Chain' (fun a b => le a b = true) l → sortBy le l = l
  | [], _ => rfl
  | [_], _ => rfl
  | a :: b :: l, h => by
    rw [List.chain'_cons] at h
    rw [sortBy_cons, sortBy_eq_self le (b :: l) h.2]
    unfold insertSorted
    rw [if_pos h.1]

theorem canonRows_map_time (pid : ℕ) (comm : String) (sel : ℤ × ℤ → ℤ) :
    ∀ (i : ℕ) (ps : List (ℤ × ℤ)),
      (canonRows pid comm sel i ps).map (fun r => r.Time) = ps.map sel
  | _, [] => rfl
  | i, p :: ps => by
    simp only [canonRows, List.map_cons]
    rw [canonRows_map_time pid comm sel (i + 1) ps]

theorem canonRows_length (pid : ℕ) (comm : String) (sel : ℤ × ℤ → ℤ) :
    ∀ (i : ℕ) (ps : List (ℤ × ℤ)), (canonRows pid comm sel i ps).length = ps.length
  | _, [] => rfl
  | i, p :: ps => by
    simp only [canonRows, List.length_cons]
    rw [canonRows_length pid comm sel (i + 1) ps]

theorem canonRows_comm (pid : ℕ) (comm : String) (sel : ℤ × ℤ → ℤ) :
    ∀ (i : ℕ) (ps : List (ℤ × ℤ)), ∀ r ∈ canonRows pid comm sel i ps, r.comm = comm
  | _, [], r, hr => by simp [canonRows] at hr
  | i, p :: ps, r, hr => by
    simp only [canonRows, List.mem_cons] at hr
    rcases hr with h | h
    · rw [h]
    · exact canonRows_comm pid comm sel (i + 1) ps r h

theorem canonRows_get? (pid : ℕ) (comm : String) (sel : ℤ × ℤ → ℤ) :
    ∀ (i : ℕ) (ps : List (ℤ × ℤ)) (j : ℕ),
      (canonRows pid comm sel i ps).get? j =
        (ps.get? j).map (fun p => ⟨sel p, comm, pid, i + j⟩)
  | _, [], j => by simp [canonRows]
  | i, p :: ps, 0 => by simp [canonRows]
  | i, p :: ps, j + 1 => by
    simp only [canonRows, List.get?]
    rw [canonRows_get? pid comm sel (i + 1) ps j]
    cases ps.get? j
    · simp
    · simp
      omega

theorem map_fst_sublist_canonTimes :
    ∀ ps : List (ℤ × ℤ), List.Sublist (ps.map Prod.fst) (canonTimes ps)
  | [] => List.Sublist.refl []
  | p :: ps => by
    simp only [List.map_cons, canonTimes]
    exact ((map_fst_sublist_canonTimes ps).cons p.2).cons₂ p.1

theorem map_snd_sublist_canonTimes :
    ∀ ps : List (ℤ × ℤ), List.Sublist (ps.map Prod.snd) (canonTimes ps)
  | [] => List.Sublist.refl []
  | p :: ps => by
    simp only [List.map_cons, canonTimes]
    exact (((map_snd_sublist_canonTimes ps).cons₂ p.2).cons p.1)

theorem canonSorted_sel (ps : List (ℤ × ℤ)) (hs : canonSorted ps)
    (sel : ℤ × ℤ → ℤ) (hsel : List.Sublist (ps.map sel) (canonTimes ps)) :
    List.Chain' (· ≤ ·) (ps.map sel) := by
  have hpw : (canonTimes ps).Pairwise (· ≤ ·) := List.chain'_iff_pairwise.mp hs
  exact List.chain'_iff_pairwise.mpr (List.Pairwise.sublist hsel hpw)

theorem sortBy_timeLE_canonRows (pid : ℕ) (comm : String) (sel : ℤ × ℤ → ℤ)
    (i : ℕ) (ps : List (ℤ × ℤ)) (h : List.Chain' (· ≤ ·) (ps.map sel)) :
    sortBy timeLE (canonRows pid comm sel i ps) = canonRows pid comm sel i ps := by
  apply sortBy_eq_self
  have hm : (canonRows pid comm sel i ps).map (fun r => r.Time) = ps.map sel :=
    canonRows_map_time pid comm sel i ps
  have h2 : List.Chain' (fun a b : ℤ => a ≤ b)
      ((canonRows pid comm sel i ps).map (fun r => r.Time)) := by rw [hm]; exact h
  have h3 := (List.chain'_map (fun r : PhaseRow => r.Time)).mp h2
  exact h3.imp fun a b hab => by simp [timeLE]; exact hab

/-- `_get_rtapp_phases('start', task)` on a well-formed run: one row per
phase with its (unique) start time. -/
theorem gRP_start_canon (pid : ℕ) (comm : String) (ps : List (ℤ × ℤ))
    (hs : canonSorted ps) (hne : ps ≠ []) :
    _get_rtapp_phases (canonEvents pid comm 0 ps) "start" ⟨pid, comm⟩ =
      .ok (canonRows pid comm Prod.fst 0 ps) := by
  unfold _get_rtapp_phases
  rw [df_rtapp_loop_canon pid comm ps hne, ok_bind]
  congr 1
  unfold _get_rtapp_phases_raw
  simp only [show ((("start" : String) == "start")) = true from rfl,
    show ((("start" : String) == "end")) = false from rfl, if_true,
    Bool.false_eq_true, if_false]
  rw [canon_filter_start]
  rw [canonStartEv_filter_pl]
  rw [groupbyHead1, groupbyHead1Aux_eq_self groupKey [] _ (by simp)
    (canonStartEv_keys_nodup pid comm 0 ps)]
  rw [canonStartEv_map_row]
  exact sortBy_timeLE_canonRows pid comm Prod.fst 0 ps
    (canonSorted_sel ps hs Prod.fst (map_fst_sublist_canonTimes ps))

/-- `_get_rtapp_phases('end', task)` on a well-formed run: one row per
phase with its (unique) end time. -/
theorem gRP_end_canon (pid : ℕ) (comm : String) (ps : List (ℤ × ℤ))
    (hs : canonSorted ps) (hne : ps ≠ []) :
    _get_rtapp_phases (canonEvents pid comm 0 ps) "end" ⟨pid, comm⟩ =
      .ok (canonRows pid comm Prod.snd 0 ps) := by
  unfold _get_rtapp_phases
  rw [df_rtapp_loop_canon pid comm ps hne, ok_bind]
  congr 1
  unfold _get_rtapp_phases_raw
  simp only [show ((("end" : String) == "start")) = false from rfl,
    show ((("end" : String) == "end")) = true from rfl, if_true,
    Bool.false_eq_true, if_false]
  rw [canon_filter_end]
  have hsorted : sortBy endSortLE (canonEndEv pid comm 0 ps) = canonEndEv pid comm 0 ps := by
    apply sortBy_eq_self
    apply chain'_all
    intro a ha b hb
    have hA := canonEndEv_pl_tl pid comm 0 ps a ha
    have hB := canonEndEv_pl_tl pid comm 0 ps b hb
    simp [endSortLE, hA.1, hA.2, hB.1, hB.2]
  rw [hsorted]
  rw [groupbyHead1, groupbyHead1Aux_eq_self groupKey [] _ (by simp)
    (canonEndEv_keys_nodup pid comm 0 ps)]
  rw [canonEndEv_map_row]
  exact sortBy_timeLE_canonRows pid comm Prod.snd 0 ps
    (canonSorted_sel ps hs Prod.snd (map_snd_sublist_canonTimes ps))

/-- `task_phase_window` on a well-formed run returns the phase's true
boundaries for an in-range index. -/
theorem tpw_canon (pid : ℕ) (comm : String) (ps : List (ℤ × ℤ))
    (hs : canonSorted ps) (j : ℕ) (hj : j < ps.length) :
    task_phase_window (canonEvents pid comm 0 ps) ⟨pid, comm⟩ (j : ℤ) =
      .ok ⟨(j : ℤ), (ps.get ⟨j, hj⟩).1, (ps.get ⟨j, hj⟩).2⟩ := by
  have hne : ps ≠ [] := by
    intro hc
    rw [hc] at hj
    simp at hj
  unfold task_phase_window df_rtapp_phase_start df_rtapp_phase_end _get_task_phase
  rw [gRP_start_canon pid comm ps hs hne, gRP_end_canon pid comm ps hs hne]
  simp only [ok_bind]
  have hjs : j < (canonRows pid comm Prod.fst 0 ps).length := by
    rw [canonRows_length]; exact hj
  have hje : j < (canonRows pid comm Prod.snd 0 ps).length := by
    rw [canonRows_length]; exact hj
  rw [gtp_raw_get _ _ j (canonRows_comm pid comm Prod.fst 0 ps) hjs,
    gtp_raw_get _ _ j (canonRows_comm pid comm Prod.snd 0 ps) hje]
  simp only [ok_bind]
  have h1 : ((canonRows pid comm Prod.fst 0 ps).get ⟨j, hjs⟩).Time = (ps.get ⟨j, hj⟩).1 := by
    have hq := canonRows_get? pid comm Prod.fst 0 ps j
    rw [List.get?_eq_get hjs, List.get?_eq_get hj] at hq
    simp only [Option.map_some'] at hq
    rw [Option.some.inj hq]
  have h2 : ((canonRows pid comm Prod.snd 0 ps).get ⟨j, hje⟩).Time = (ps.get ⟨j, hj⟩).2 := by
    have hq := canonRows_get? pid comm Prod.snd 0 ps j
    rw [List.get?_eq_get hje, List.get?_eq_get hj] at hq
    simp only [Option.map_some'] at hq
    rw [Option.some.inj hq]
  rw [h1, h2]

/-- `task_phase_windows` on a well-formed run: one window per phase with
its true boundaries. -/
theorem windows_canon (pid : ℕ) (comm : String) (ps : List (ℤ × ℤ))
    (hne : ps ≠ []) :
    task_phase_windows (canonEvents pid comm 0 ps) ⟨pid, comm⟩ =
      .ok ((List.enum ps).map (fun ip => ⟨(ip.1 : ℤ), ip.2.1, ip.2.2⟩)) := by
  unfold task_phase_windows
  rw [df_phases_canon pid comm ps hne, ok_bind]
  clear hne
  congr 1
  show (List.enumFrom 0 (ps.map (fun p => (p.1, p.2 - p.1)))).map
      (fun ip => (⟨(ip.1 : ℤ), ip.2.1, ip.2.1 + ip.2.2⟩ : PhaseWindow)) =
    (List.enumFrom 0 ps).map (fun ip => ⟨(ip.1 : ℤ), ip.2.1, ip.2.2⟩)
  generalize 0 = n
  induction ps generalizing n with
  | nil => rfl
  | cons q qs ih =>
    simp only [List.map_cons, List.enumFrom_cons]
    rw [ih]
    have hq : q.1 + (q.2 - q.1) = q.2 := by omega
    rw [hq]

/-- C8 amended: the two window computations agree on well-formed runs in
which every phase occurs exactly once with a single `phase_loop = 0`
`start` and a single `end`: `task_phase_window(task, k)` equals the `k`-th
window yielded by `task_phase_windows(task)`.  (On repeated phases they
diverge, see the counterexample.) -/
theorem rta_C8_amended (pid : ℕ) (comm : String) (ps : List (ℤ × ℤ)) (k : ℕ)
    (hs : canonSorted ps) (hk : k < ps.length) :
    ∃ L w, task_phase_windows (canonEvents pid comm 0 ps) ⟨pid, comm⟩ = .ok L ∧
      L.get? k = some w ∧
      task_phase_window (canonEvents pid comm 0 ps) ⟨pid, comm⟩ (k : ℤ) = .ok w := by
  have hne : ps ≠ [] := by
    intro hc
    rw [hc] at hk
    simp at hk
  refine ⟨_, ⟨(k : ℤ), (ps.get ⟨k, hk⟩).1, (ps.get ⟨k, hk⟩).2⟩,
    windows_canon pid comm ps hne, ?_, tpw_canon pid comm ps hs k hk⟩
  rw [List.get?_map]
  rw [show List.enum ps = List.enumFrom 0 ps from rfl]
  rw [List.get?_enumFrom]
  rw [List.get?_eq_get hk]
  simp

theorem rta_C8_amended_witness :
    ∃ L w, task_phase_windows (canonEvents 7 "taskB" 0 [(0, 10), (20, 30)]) ⟨7, "taskB"⟩ = .ok L ∧
      L.get? 1 = some w ∧
      task_phase_window (canonEvents 7 "taskB" 0 [(0, 10), (20, 30)]) ⟨7, "taskB"⟩
        ((1 : ℕ) : ℤ) = .ok w :=
  rta_C8_amended 7 "taskB" [(0, 10), (20, 30)] 1
    (by simp [canonSorted, canonTimes]) (by decide)

theorem get_task_id_canon (pid : ℕ) (comm : String) (ps : List (ℤ × ℤ))
    (hne : ps ≠ []) :
    get_task_id (canonEvents pid comm 0 ps) comm = .ok ⟨pid, comm⟩ := by
  cases ps with
  | nil => exact absurd rfl hne
  | cons p ps =>
    unfold get_task_id
    simp only [canonEvents]
    rw [List.find?_cons_of_pos _ (by simp)]

theorem filter_lt_add_filter_ge (t : ℤ) :
    ∀ ps : List (ℤ × ℤ),
      (ps.filter (fun p => decide (p.1 < t))).length +
        (ps.filter (fun p => decide (t ≤ p.1))).length = ps.length
  | [] => rfl
  | p :: ps => by
    simp only [List.filter_cons]
    have ih := filter_lt_add_filter_ge t ps
    by_cases h : p.1 < t
    · rw [if_pos (by simpa using h), if_neg (by simpa using not_le.mpr h)]
      simp only [List.length_cons]
      omega
    · rw [if_neg (by simpa using h), if_pos (by simpa using not_lt.mp h)]
      simp only [List.length_cons]
      omega

theorem filter_ge_map (t : ℤ) (ps : List (ℤ × ℤ)) :
    ((ps.map (fun p => (p.1, p.2 - p.1))).filter (fun r => decide (t ≤ r.1))).length =
      (ps.filter (fun p => decide (t ≤ p.1))).length := by
  rw [← List.countP_eq_length_filter, ← List.countP_eq_length_filter, List.countP_map]
  rfl

/-- C3 amended: `task_phase_at` (whose upper bound uses the hardcoded task
name `test_task-0`) treats phase intervals as left-open right-closed: on a
well-formed run it returns `None` when `t` exceeds the last phase's end or
when no phase start is strictly before `t` (in particular when
`t ≤ table[0].start`), and otherwise returns the window of the *last*
phase whose start is strictly before `t` — so a phase boundary timestamp
resolves to the earlier phase, not the one whose `[start, start+duration)`
interval contains it. -/
theorem rta_C3_amended (pid : ℕ) (ps : List (ℤ × ℤ)) (t : ℤ)
    (hs : canonSorted ps) (hne : ps ≠ []) :
    ((ps.getLast hne).2 < t →
      task_phase_at (canonEvents pid "test_task-0" 0 ps) ⟨pid, "test_task-0"⟩ t =
        .ok none) ∧
    (t ≤ (ps.getLast hne).2 → (ps.filter (fun p => decide (p.1 < t))).length = 0 →
      task_phase_at (canonEvents pid "test_task-0" 0 ps) ⟨pid, "test_task-0"⟩ t =
        .ok none) ∧
    (t ≤ (ps.getLast hne).2 → 0 < (ps.filter (fun p => decide (p.1 < t))).length →
      ∃ q, ps.get? ((ps.filter (fun p => decide (p.1 < t))).length - 1) = some q ∧
        task_phase_at (canonEvents pid "test_task-0" 0 ps) ⟨pid, "test_task-0"⟩ t =
          .ok (some ⟨((ps.filter (fun p => decide (p.1 < t))).length : ℤ) - 1,
            q.1, q.2⟩)) := by
  have hgti := get_task_id_canon pid "test_task-0" ps hne
  have hdf := df_phases_canon pid "test_task-0" ps hne
  have hlastv : valuesLast (ps.map (fun p => (p.1, p.2 - p.1))) =
      .ok ((ps.getLast hne).1, (ps.getLast hne).2 - (ps.getLast hne).1) := by
    unfold valuesLast
    rw [List.getLast?_map, List.getLast?_eq_getLast ps hne]
    rfl
  have hsum : (ps.getLast hne).1 + ((ps.getLast hne).2 - (ps.getLast hne).1) =
      (ps.getLast hne).2 := by ring
  have hsplit := filter_lt_add_filter_ge t ps
  refine ⟨?_, ?_, ?_⟩
  · intro hgt
    unfold task_phase_at
    rw [hgti, ok_bind, hdf, ok_bind, hlastv, ok_bind]
    simp only
    rw [hsum, if_pos hgt]
  · intro hle hc0
    unfold task_phase_at
    rw [hgti, ok_bind, hdf, ok_bind, hlastv, ok_bind]
    simp only
    rw [hsum, if_neg (not_lt.mpr hle)]
    rw [ok_bind]
    rw [List.length_map, filter_ge_map t ps]
    rw [if_pos (by omega)]
  · intro hle hc1
    have hcle : (ps.filter (fun p => decide (p.1 < t))).length ≤ ps.length := by omega
    have hlt : (ps.filter (fun p => decide (p.1 < t))).length - 1 < ps.length := by omega
    refine ⟨ps.get ⟨_, hlt⟩, List.get?_eq_get hlt, ?_⟩
    unfold task_phase_at
    rw [hgti, ok_bind, hdf, ok_bind, hlastv, ok_bind]
    simp only
    rw [hsum, if_neg (not_lt.mpr hle)]
    rw [ok_bind]
    rw [List.length_map, filter_ge_map t ps]
    rw [if_neg (by omega)]
    have hpid : ((ps.length : ℤ) -
        ((ps.filter (fun p => decide (t ≤ p.1))).length : ℤ) - 1) =
        (((ps.filter (fun p => decide (p.1 < t))).length - 1 : ℕ) : ℤ) := by omega
    rw [hpid]
    rw [tpw_canon pid "test_task-0" ps hs _ hlt]
    have hcast : ((((ps.filter (fun p => decide (p.1 < t))).length - 1 : ℕ)) : ℤ) =
        ((ps.filter (fun p => decide (p.1 < t))).length : ℤ) - 1 := by omega
    rw [hcast]
    rfl

theorem rta_C3_amended_witness :
    ∃ q, ([(0, 10), (20, 30)] : List (ℤ × ℤ)).get?
        ((([(0, 10), (20, 30)] : List (ℤ × ℤ)).filter
          (fun p => decide (p.1 < 25))).length - 1) = some q ∧
      task_phase_at (canonEvents 1 "test_task-0" 0 [(0, 10), (20, 30)])
          ⟨1, "test_task-0"⟩ 25 =
        .ok (some ⟨((([(0, 10), (20, 30)] : List (ℤ × ℤ)).filter
            (fun p => decide (p.1 < 25))).length : ℤ) - 1, q.1, q.2⟩) :=
  (rta_C3_amended 1 [(0, 10), (20, 30)] 25
      (by simp [canonSorted, canonTimes]) (by decide)).2.2
    (by decide) (by decide)
